import Mathlib

/-!
Verification of the mapping-and-refresh subsystem of the godataflow
repository: the JSON path flattener `flatten_json` and the mapping
construction of the ETL wizards (frontend/pages/etl_mapping.py and
frontend/views/etl_automation.py), plus a model of the refresh
scheduler's exclusion rule described in the design document.

JSON values are embedded as a tagged union; Python dictionaries are
embedded as association lists in insertion order, with `dictInsert`
mirroring `d[k] = v` (replace in place if the key exists, else append)
and `dictUpdate` mirroring `d.update(d2)`.
-/

/-- A JSON-like document value, mirroring the Python values
`flatten_json` dispatches on: `dict` is `obj`, `list` is `arr`, and the
remaining scalar tags cover None, booleans, numbers and strings. -/
inductive Json where
  | null : Json
  | bool : Bool → Json
  | num : Int → Json
  | str : String → Json
  | arr : List Json → Json
  | obj : List (String × Json) → Json

/-- The path extension `full = f"{prefix}.{k}" if prefix else k` from
flatten_json in frontend/pages/etl_mapping.py. -/
def joinKey (pfx k : String) : String :=
  if pfx = "" then k else pfx ++ "." ++ k

/-- Left fold of `joinKey` over a key sequence: the dotted path a chain
of keys produces when flattened starting from accumulated path `pfx`. -/
def joinAll (pfx : String) (ks : List String) : String :=
  ks.foldl joinKey pfx

/-- The plain dot-join of a key sequence, written from the spec's
words: successive keys separated by `.`. -/
def dottedJoin : List String → String
  | [] => ""
  | [k] => k
  | k :: ks => k ++ "." ++ dottedJoin ks

/-- Overwrite an entry in place when its key is `k`. -/
def replaceKey {α : Type} (k : String) (v : α) (p : String × α) : String × α :=
  if p.1 = k then (k, v) else p

/-- Python dictionary assignment `out[k] = v` on an insertion-ordered
association list: replace in place when the key is present, otherwise
append at the end. -/
def dictInsert {α : Type} (out : List (String × α)) (k : String) (v : α) :
    List (String × α) :=
  if out.any (fun p => p.1 = k) then out.map (replaceKey k v)
  else out ++ [(k, v)]

/-- Python `out.update(d)`: assign every pair of `d` in order. -/
def dictUpdate {α : Type} (out d : List (String × α)) : List (String × α) :=
  d.foldl (fun acc p => dictInsert acc p.1 p.2) out

mutual

/-- `flatten_json(y, prefix="")` from frontend/pages/etl_mapping.py.
A dict runs the field loop starting from the empty accumulator `out`;
any other value is stored whole under `prefix or "value"`. -/
def flatten_json (y : Json) (pfx : String) : List (String × Json) :=
  match y with
  | .obj fields => flattenLoop fields pfx []
  | _ => [((if pfx = "" then "value" else pfx), y)]

/-- The `for k, v in y.items()` loop body of `flatten_json`: a dict
value is recursed into (`out.update(flatten_json(v, full))`), a list
whose first element is a dict has that first element recursed into, and
every other value — scalar, empty list, or list with a non-dict first
element — is stored whole by `out[full] = v`. -/
def flattenLoop (fields : List (String × Json)) (pfx : String)
    (out : List (String × Json)) : List (String × Json) :=
  match fields with
  | [] => out
  | (k, v) :: rest =>
    match v with
    | .obj g =>
        flattenLoop rest pfx (dictUpdate out (flatten_json (.obj g) (joinKey pfx k)))
    | .arr (Json.obj g :: _) =>
        flattenLoop rest pfx (dictUpdate out (flatten_json (.obj g) (joinKey pfx k)))
    | .arr l => flattenLoop rest pfx (dictInsert out (joinKey pfx k) (.arr l))
    | _ => flattenLoop rest pfx (dictInsert out (joinKey pfx k) v)

end

/-- The effect of one iteration of the `for k, v in y.items()` loop on
the accumulator `out`: the same case split as in `flattenLoop`, exposed
as a function of the field value so the loop can be reasoned about one
step at a time. -/
def stepOut (out : List (String × Json)) (pfx k : String) (v : Json) :
    List (String × Json) :=
  match v with
  | .obj g => dictUpdate out (flatten_json (.obj g) (joinKey pfx k))
  | .arr (Json.obj g :: _) => dictUpdate out (flatten_json (.obj g) (joinKey pfx k))
  | .arr l => dictInsert out (joinKey pfx k) (.arr l)
  | _ => dictInsert out (joinKey pfx k) v

/-- A scalar in the sense of the flattener's dispatch: neither a dict
nor a list. -/
def isScalar : Json → Bool
  | .obj _ => false
  | .arr _ => false
  | _ => true

/-- Whether a value is a dict (`isinstance(v, dict)` in the source). -/
def isObj : Json → Bool
  | .obj _ => true
  | _ => false

/-- Whether a list fails the `len(v) > 0 and isinstance(v[0], dict)`
test, i.e. is stored whole rather than sampled. -/
def headNotObj : List Json → Bool
  | Json.obj _ :: _ => false
  | _ => true

mutual

/-- Collision-free reading of the flattener: the same traversal as
`flatten_json` but emitting contributions by plain concatenation
instead of dictionary update.  Agrees with `flatten_json` whenever the
produced paths are pairwise distinct. -/
def flattenA (y : Json) (pfx : String) : List (String × Json) :=
  match y with
  | .obj fields => fieldsA fields pfx
  | _ => [((if pfx = "" then "value" else pfx), y)]

/-- Concatenation form of the field loop of `flatten_json`. -/
def fieldsA (fields : List (String × Json)) (pfx : String) :
    List (String × Json) :=
  match fields with
  | [] => []
  | (k, v) :: rest =>
    (match v with
     | .obj g => flattenA (.obj g) (joinKey pfx k)
     | .arr (Json.obj g :: _) => flattenA (.obj g) (joinKey pfx k)
     | .arr l => [(joinKey pfx k, .arr l)]
     | _ => [(joinKey pfx k, v)]) ++ fieldsA rest pfx

end

/-- `EmitsF fields ks w` relates a field list to the key sequences `ks`
along which the flattener traverses from those fields down to a stored
value `w`: descend into a dict value, descend into the first element of
a list whose first element is a dict, or stop and store a scalar or a
whole list. -/
inductive EmitsF : List (String × Json) → List String → Json → Prop where
  | head_obj {k g t ks w} :
      EmitsF g ks w → EmitsF ((k, Json.obj g) :: t) (k :: ks) w
  | head_arr {k g l t ks w} :
      EmitsF g ks w → EmitsF ((k, Json.arr (Json.obj g :: l)) :: t) (k :: ks) w
  | head_list {k l t} :
      headNotObj l = true → EmitsF ((k, Json.arr l) :: t) [k] (Json.arr l)
  | head_scalar {k v t} :
      isScalar v = true → EmitsF ((k, v) :: t) [k] v
  | tail {f t ks w} : EmitsF t ks w → EmitsF (f :: t) ks w

/-- A branch of the document made only of (possibly nested) objects with
no scalar or list leaf anywhere: every value of every field is again
such a branch. -/
inductive EmptyBranch : Json → Prop where
  | mk (fields : List (String × Json)) :
      (∀ p ∈ fields, EmptyBranch p.2) → EmptyBranch (.obj fields)

/-- The mapping-construction loop shared by both wizards
(`for col in cols_list: ... mapping_result[chosen] = col` in
frontend/pages/etl_mapping.py, and
`for col_info in col_res: ... mapping[api_key] = col_name` in
frontend/views/etl_automation.py): iterate over the table's column
names in order, and for each column for which the user supplied a
source path, assign `mapping[path] = column`.  The widget input is
abstracted as `choice`, returning `none` when the user picked
"(none)" or left the text input blank. -/
def buildLoop (cols : List String) (choice : String → Option String)
    (acc : List (String × String)) : List (String × String) :=
  match cols with
  | [] => acc
  | c :: rest =>
    buildLoop rest choice
      (match choice c with
       | some p => dictInsert acc p c
       | none => acc)

/-- The mapping a wizard run produces, starting from the empty dict. -/
def buildMapping (cols : List String) (choice : String → Option String) :
    List (String × String) :=
  buildLoop cols choice []

/-- Modelled from the spec: trigger kinds of a refresh attempt
(§3 Refresh Attempt Record); the backend scheduler is not among the
frontend sources. -/
inductive TriggerKind where
  | manual : TriggerKind
  | scheduled : TriggerKind
deriving DecidableEq

/-- Modelled from the spec: outcome status of a refresh attempt (§3). -/
inductive RefreshStatus where
  | success : RefreshStatus
  | failure : RefreshStatus
deriving DecidableEq

/-- Modelled from the spec: a Refresh Attempt Record (§3) — trigger
kind, status, message and rows-affected count. -/
structure RefreshRecord where
  triggerKind : TriggerKind
  status : RefreshStatus
  message : String
  rowsAffected : Nat
deriving DecidableEq

/-- Modelled from the spec: the per-table scheduler states of §4.4,
`Idle → Running → Idle`. -/
inductive SchedState where
  | idle : SchedState
  | running : SchedState
deriving DecidableEq

/-- Modelled from the spec: the scheduler's per-table view — current
state plus the append-only refresh history (§4.4, §4.5). -/
structure TableSched where
  state : SchedState
  history : List RefreshRecord
deriving DecidableEq

/-- Modelled from the spec: result of presenting a trigger to the
scheduler (§4.4). -/
inductive TriggerOutcome where
  | accepted : TriggerOutcome
  | rejected : String → TriggerOutcome
deriving DecidableEq

/-- Modelled from the spec: §4.4 — only `Idle` accepts a new trigger
(manual or scheduled); a trigger received while `Running` is rejected
with the signal "refresh already in progress" and changes nothing.  The
backend scheduler is absent from the frontend sources, so this step
function is taken from the spec's state machine. -/
def triggerRefresh (t : TableSched) : TableSched × TriggerOutcome :=
  match t.state with
  | .idle => ({ t with state := .running }, .accepted)
  | .running => (t, .rejected "refresh already in progress")

/-- Modelled from the spec: §4.4 step 6 — on completion the attempt
record is appended and the table returns to `Idle`. -/
def completeRefresh (t : TableSched) (r : RefreshRecord) : TableSched :=
  { state := .idle, history := t.history ++ [r] }

/-- A concrete wizard input (the scenario of §8: two columns mapped to
two leaf paths), used to instantiate the mapping invariant. -/
def sampleChoice : String → Option String :=
  fun c => if c = "ts" then some "hourly.time"
           else if c = "temp" then some "hourly.temperature_2m"
           else none

/-- A concrete table mid-refresh, used to instantiate the exclusion
property: one prior successful attempt in the history, state Running. -/
def sampleRunning : TableSched :=
  { state := .running,
    history := [{ triggerKind := .manual, status := .success,
                  message := "ok", rowsAffected := 1 }] }

/-! Basic facts about the dictionary operations. -/

theorem dictUpdate_nil {α : Type} (out : List (String × α)) :
    dictUpdate out [] = out := rfl

theorem dictInsert_eq_dictUpdate {α : Type} (out : List (String × α))
    (k : String) (v : α) : dictInsert out k v = dictUpdate out [(k, v)] := rfl

theorem mem_dictInsert {α : Type} {out : List (String × α)} {k : String}
    {v : α} {p : String} {w : α} (h : (p, w) ∈ dictInsert out k v) :
    (p, w) ∈ out ∨ (p = k ∧ w = v) := by
  unfold dictInsert at h
  split at h
  · obtain ⟨q, hq, heq⟩ := List.mem_map.mp h
    unfold replaceKey at heq
    split at heq
    · rcases heq with ⟨rfl, rfl⟩
      exact Or.inr ⟨rfl, rfl⟩
    · exact Or.inl (heq ▸ hq)
  · rcases List.mem_append.mp h with h1 | h1
    · exact Or.inl h1
    · simp only [List.mem_singleton, Prod.mk.injEq] at h1
      exact Or.inr h1

theorem mem_dictUpdate {α : Type} {out d : List (String × α)} {p : String}
    {w : α} (h : (p, w) ∈ dictUpdate out d) : (p, w) ∈ out ∨ (p, w) ∈ d := by
  induction d generalizing out with
  | nil => exact Or.inl h
  | cons q d' ih =>
    have h2 : (p, w) ∈ dictUpdate (dictInsert out q.1 q.2) d' := h
    rcases ih h2 with h1 | h1
    · rcases mem_dictInsert h1 with h2 | ⟨rfl, rfl⟩
      · exact Or.inl h2
      · exact Or.inr (by simp)
    · exact Or.inr (List.mem_cons_of_mem _ h1)

theorem keys_dictInsert {α : Type} (out : List (String × α)) (k : String)
    (v : α) :
    (dictInsert out k v).map Prod.fst =
      if out.any (fun p => p.1 = k) then out.map Prod.fst
      else out.map Prod.fst ++ [k] := by
  unfold dictInsert
  split
  · simp only [List.map_map]
    apply List.map_congr_left
    intro p _
    by_cases hp : p.1 = k <;> simp [replaceKey, Function.comp, hp]
  · simp

theorem self_mem_keys_dictInsert {α : Type} (out : List (String × α))
    (k : String) (v : α) : k ∈ (dictInsert out k v).map Prod.fst := by
  rw [keys_dictInsert]
  split
  · next h =>
    obtain ⟨p, hp, hpk⟩ := List.any_eq_true.mp h
    simp only [decide_eq_true_eq] at hpk
    exact hpk ▸ List.mem_map_of_mem Prod.fst hp
  · simp

theorem keys_mono_dictInsert {α : Type} {out : List (String × α)}
    {q : String} (k : String) (v : α) (h : q ∈ out.map Prod.fst) :
    q ∈ (dictInsert out k v).map Prod.fst := by
  rw [keys_dictInsert]
  split
  · exact h
  · exact List.mem_append_left _ h

theorem keys_mono_dictUpdate {α : Type} {out d : List (String × α)}
    {q : String} (h : q ∈ out.map Prod.fst) :
    q ∈ (dictUpdate out d).map Prod.fst := by
  induction d generalizing out with
  | nil => exact h
  | cons p d' ih => exact ih (keys_mono_dictInsert p.1 p.2 h)

theorem dictInsert_of_not_mem {α : Type} {out : List (String × α)}
    {k : String} (h : k ∉ out.map Prod.fst) (v : α) :
    dictInsert out k v = out ++ [(k, v)] := by
  unfold dictInsert
  rw [if_neg]
  intro hany
  obtain ⟨p, hp, hpk⟩ := List.any_eq_true.mp hany
  simp only [decide_eq_true_eq] at hpk
  exact h (hpk ▸ List.mem_map_of_mem Prod.fst hp)

theorem keys_nodup_dictInsert {α : Type} {out : List (String × α)}
    (k : String) (v : α) (h : (out.map Prod.fst).Nodup) :
    ((dictInsert out k v).map Prod.fst).Nodup := by
  rw [keys_dictInsert]
  split
  · exact h
  · next hany =>
    refine h.append (List.nodup_singleton k) ?_
    intro q hq hk
    rw [List.mem_singleton] at hk
    subst hk
    obtain ⟨p, hp, hpk⟩ := List.mem_map.mp hq
    have : out.any (fun p => p.1 = q) = true :=
      List.any_eq_true.mpr ⟨p, hp, by simp [hpk]⟩
    simp_all

theorem dictUpdate_of_disjoint {α : Type} :
    ∀ {d out : List (String × α)}, (d.map Prod.fst).Nodup →
      (∀ q ∈ d.map Prod.fst, q ∉ out.map Prod.fst) →
      dictUpdate out d = out ++ d := by
  intro d
  induction d with
  | nil => intro out _ _; simp [dictUpdate_nil]
  | cons p d' ih =>
    intro out hnd hdisj
    obtain ⟨k, v⟩ := p
    have hnd2 : (k :: d'.map Prod.fst).Nodup := by simpa using hnd
    have hstep : dictInsert out k v = out ++ [(k, v)] :=
      dictInsert_of_not_mem (hdisj k (by simp)) v
    have h1 : dictUpdate out ((k, v) :: d') = dictUpdate (dictInsert out k v) d' := rfl
    rw [h1, hstep, ih hnd2.of_cons ?_]
    · simp
    · intro q hq hmem
      rw [List.map_append] at hmem
      rcases List.mem_append.mp hmem with h2 | h2
      · exact hdisj q (by simp [hq]) h2
      · simp only [List.map_cons, List.map_nil, List.mem_singleton] at h2
        subst h2
        exact (List.nodup_cons.mp hnd2).1 hq

/-! Step equations for the field loop of the flattener. -/

theorem flattenLoop_nil (pfx : String) (out : List (String × Json)) :
    flattenLoop [] pfx out = out := rfl

theorem flattenLoop_cons (k : String) (v : Json)
    (rest : List (String × Json)) (pfx : String)
    (out : List (String × Json)) :
    flattenLoop ((k, v) :: rest) pfx out =
      flattenLoop rest pfx (stepOut out pfx k v) := by
  cases v with
  | arr l =>
    cases l with
    | nil => rfl
    | cons x t => cases x <;> rfl
  | _ => rfl

theorem flattenLoop_obj (k : String) (g rest : List (String × Json))
    (pfx : String) (out : List (String × Json)) :
    flattenLoop ((k, Json.obj g) :: rest) pfx out =
      flattenLoop rest pfx
        (dictUpdate out (flatten_json (Json.obj g) (joinKey pfx k))) := rfl

theorem flattenLoop_arr_obj (k : String) (g rest : List (String × Json))
    (t : List Json) (pfx : String) (out : List (String × Json)) :
    flattenLoop ((k, Json.arr (Json.obj g :: t)) :: rest) pfx out =
      flattenLoop rest pfx
        (dictUpdate out (flatten_json (Json.obj g) (joinKey pfx k))) := rfl

theorem flattenLoop_arr_whole (k : String) (l : List Json)
    (rest : List (String × Json)) (pfx : String)
    (out : List (String × Json)) (hl : headNotObj l = true) :
    flattenLoop ((k, Json.arr l) :: rest) pfx out =
      flattenLoop rest pfx (dictInsert out (joinKey pfx k) (Json.arr l)) := by
  cases l with
  | nil => rfl
  | cons x t => cases x <;> first | rfl | simp [headNotObj] at hl

theorem flattenLoop_scalar (k : String) (v : Json)
    (rest : List (String × Json)) (pfx : String)
    (out : List (String × Json)) (hv : isScalar v = true) :
    flattenLoop ((k, v) :: rest) pfx out =
      flattenLoop rest pfx (dictInsert out (joinKey pfx k) v) := by
  cases v <;> first | rfl | simp [isScalar] at hv

theorem flattenLoop_append (a b : List (String × Json)) (pfx : String)
    (out : List (String × Json)) :
    flattenLoop (a ++ b) pfx out = flattenLoop b pfx (flattenLoop a pfx out) := by
  induction a generalizing out with
  | nil => rfl
  | cons f a' ih =>
    obtain ⟨k, v⟩ := f
    rw [List.cons_append, flattenLoop_cons, flattenLoop_cons, ih]

theorem keys_mono_stepOut {out : List (String × Json)} {q : String}
    (pfx k : String) (v : Json) (h : q ∈ out.map Prod.fst) :
    q ∈ (stepOut out pfx k v).map Prod.fst := by
  cases v with
  | arr l =>
    cases l with
    | nil => exact keys_mono_dictInsert _ _ h
    | cons x t =>
      cases x <;>
        first
          | exact keys_mono_dictUpdate h
          | exact keys_mono_dictInsert _ _ h
  | obj g => exact keys_mono_dictUpdate h
  | _ => exact keys_mono_dictInsert _ _ h

theorem keys_mono_flattenLoop {q : String} :
    ∀ (fields : List (String × Json)) (pfx : String)
      (out : List (String × Json)), q ∈ out.map Prod.fst →
      q ∈ (flattenLoop fields pfx out).map Prod.fst := by
  intro fields
  induction fields with
  | nil => intro pfx out h; exact h
  | cons f rest ih =>
    intro pfx out h
    obtain ⟨k, v⟩ := f
    rw [flattenLoop_cons]
    exact ih pfx _ (keys_mono_stepOut pfx k v h)

/-! Facts about the dotted-path join. -/

theorem joinAll_cons (pfx k : String) (ks : List String) :
    joinAll pfx (k :: ks) = joinAll (joinKey pfx k) ks := rfl

theorem joinAll_single (pfx k : String) : joinAll pfx [k] = joinKey pfx k := rfl

/-! Soundness of the flattener with respect to the emission relation:
every entry of the output comes from some key chain of the document. -/

theorem sound_store_case {rest : List (String × Json)} {k : String}
    {v : Json} {pfx : String} {out : List (String × Json)} {p : String}
    {w : Json}
    (ih : ∀ out, (p, w) ∈ flattenLoop rest pfx out → (p, w) ∈ out ∨
      ∃ ks, ks ≠ [] ∧ p = joinAll pfx ks ∧ EmitsF rest ks w)
    (hhead : EmitsF ((k, v) :: rest) [k] v)
    (hmem : (p, w) ∈ flattenLoop rest pfx (dictInsert out (joinKey pfx k) v)) :
    (p, w) ∈ out ∨
      ∃ ks, ks ≠ [] ∧ p = joinAll pfx ks ∧ EmitsF ((k, v) :: rest) ks w := by
  rcases ih _ hmem with h1 | ⟨ks, hne, hp, he⟩
  · rcases mem_dictInsert h1 with h2 | ⟨hpk, hwv⟩
    · exact Or.inl h2
    · subst hwv
      exact Or.inr ⟨[k], by simp, by rw [joinAll_single]; exact hpk, hhead⟩
  · exact Or.inr ⟨ks, hne, hp, EmitsF.tail he⟩

theorem sound_recurse_case {rest g : List (String × Json)} {k : String}
    {v : Json} {pfx : String} {out : List (String × Json)} {p : String}
    {w : Json}
    (ih : ∀ out, (p, w) ∈ flattenLoop rest pfx out → (p, w) ∈ out ∨
      ∃ ks, ks ≠ [] ∧ p = joinAll pfx ks ∧ EmitsF rest ks w)
    (ihg : ∀ out, (p, w) ∈ flattenLoop g (joinKey pfx k) out →
      (p, w) ∈ out ∨
      ∃ ks, ks ≠ [] ∧ p = joinAll (joinKey pfx k) ks ∧ EmitsF g ks w)
    (hhead : ∀ ks, EmitsF g ks w → EmitsF ((k, v) :: rest) (k :: ks) w)
    (hmem : (p, w) ∈ flattenLoop rest pfx
      (dictUpdate out (flatten_json (Json.obj g) (joinKey pfx k)))) :
    (p, w) ∈ out ∨
      ∃ ks, ks ≠ [] ∧ p = joinAll pfx ks ∧ EmitsF ((k, v) :: rest) ks w := by
  rcases ih _ hmem with h1 | ⟨ks, hne, hp, he⟩
  · rcases mem_dictUpdate h1 with h2 | h3
    · exact Or.inl h2
    · have h3' : (p, w) ∈ flattenLoop g (joinKey pfx k) [] := h3
      rcases ihg [] h3' with h4 | ⟨ks', _, hp', he'⟩
      · exact absurd h4 (List.not_mem_nil _)
      · exact Or.inr ⟨k :: ks', by simp,
          by rw [joinAll_cons]; exact hp', hhead ks' he'⟩
  · exact Or.inr ⟨ks, hne, hp, EmitsF.tail he⟩

theorem flattenLoop_sound :
    ∀ (n : Nat) (fields : List (String × Json)), sizeOf fields ≤ n →
      ∀ (pfx : String) (out : List (String × Json)) (p : String) (w : Json),
        (p, w) ∈ flattenLoop fields pfx out → (p, w) ∈ out ∨
          ∃ ks, ks ≠ [] ∧ p = joinAll pfx ks ∧ EmitsF fields ks w := by
  intro n
  induction n with
  | zero =>
    intro fields h
    exfalso
    cases fields <;> simp at h
  | succ n ih =>
    intro fields hsz pfx out p w hmem
    cases fields with
    | nil => exact Or.inl hmem
    | cons f rest =>
      obtain ⟨k, v⟩ := f
      have hrest : sizeOf rest ≤ n := by
        simp at hsz; omega
      have ihrest : ∀ out, (p, w) ∈ flattenLoop rest pfx out →
          (p, w) ∈ out ∨
          ∃ ks, ks ≠ [] ∧ p = joinAll pfx ks ∧ EmitsF rest ks w :=
        fun out h => ih rest hrest pfx out p w h
      cases v with
      | obj g =>
        have hg : sizeOf g ≤ n := by simp at hsz; omega
        rw [flattenLoop_obj] at hmem
        exact sound_recurse_case ihrest
          (fun out h => ih g hg (joinKey pfx k) out p w h)
          (fun ks he => EmitsF.head_obj he) hmem
      | arr l =>
        cases l with
        | nil =>
          rw [flattenLoop_cons] at hmem
          exact sound_store_case ihrest (EmitsF.head_list rfl) hmem
        | cons x t =>
          cases x with
          | obj g =>
            have hg : sizeOf g ≤ n := by simp at hsz; omega
            rw [flattenLoop_arr_obj] at hmem
            exact sound_recurse_case ihrest
              (fun out h => ih g hg (joinKey pfx k) out p w h)
              (fun ks he => EmitsF.head_arr he) hmem
          | null =>
            rw [flattenLoop_cons] at hmem
            exact sound_store_case ihrest (EmitsF.head_list rfl) hmem
          | bool b =>
            rw [flattenLoop_cons] at hmem
            exact sound_store_case ihrest (EmitsF.head_list rfl) hmem
          | num m =>
            rw [flattenLoop_cons] at hmem
            exact sound_store_case ihrest (EmitsF.head_list rfl) hmem
          | str s =>
            rw [flattenLoop_cons] at hmem
            exact sound_store_case ihrest (EmitsF.head_list rfl) hmem
          | arr l' =>
            rw [flattenLoop_cons] at hmem
            exact sound_store_case ihrest (EmitsF.head_list rfl) hmem
      | null =>
        rw [flattenLoop_cons] at hmem
        exact sound_store_case ihrest (EmitsF.head_scalar rfl) hmem
      | bool b =>
        rw [flattenLoop_cons] at hmem
        exact sound_store_case ihrest (EmitsF.head_scalar rfl) hmem
      | num m =>
        rw [flattenLoop_cons] at hmem
        exact sound_store_case ihrest (EmitsF.head_scalar rfl) hmem
      | str s =>
        rw [flattenLoop_cons] at hmem
        exact sound_store_case ihrest (EmitsF.head_scalar rfl) hmem

/-! When the produced paths are collision-free, the dictionary-update
traversal agrees with plain concatenation, and every scalar field is
present in the output under its dotted path. -/

theorem fieldsA_nil (pfx : String) : fieldsA [] pfx = [] := rfl

theorem fieldsA_obj (k : String) (g rest : List (String × Json))
    (pfx : String) :
    fieldsA ((k, Json.obj g) :: rest) pfx =
      fieldsA g (joinKey pfx k) ++ fieldsA rest pfx := rfl

theorem fieldsA_arr_obj (k : String) (g rest : List (String × Json))
    (t : List Json) (pfx : String) :
    fieldsA ((k, Json.arr (Json.obj g :: t)) :: rest) pfx =
      fieldsA g (joinKey pfx k) ++ fieldsA rest pfx := rfl

theorem fieldsA_arr_whole (k : String) (l : List Json)
    (rest : List (String × Json)) (pfx : String)
    (hl : headNotObj l = true) :
    fieldsA ((k, Json.arr l) :: rest) pfx =
      (joinKey pfx k, Json.arr l) :: fieldsA rest pfx := by
  cases l with
  | nil => rfl
  | cons x t => cases x <;> first | rfl | simp [headNotObj] at hl

theorem fieldsA_scalar (k : String) (v : Json)
    (rest : List (String × Json)) (pfx : String) (hv : isScalar v = true) :
    fieldsA ((k, v) :: rest) pfx =
      (joinKey pfx k, v) :: fieldsA rest pfx := by
  cases v <;> first | rfl | simp [isScalar] at hv

theorem store_case_fieldsA {rest : List (String × Json)} {k : String}
    {v : Json} {pfx : String} {out : List (String × Json)}
    (ihrest : ∀ (pfx : String) (out : List (String × Json)),
      ((fieldsA rest pfx).map Prod.fst).Nodup →
      (∀ q ∈ (fieldsA rest pfx).map Prod.fst, q ∉ out.map Prod.fst) →
      flattenLoop rest pfx out = out ++ fieldsA rest pfx)
    (hnd : ((fieldsA ((k, v) :: rest) pfx).map Prod.fst).Nodup)
    (hdisj : ∀ q ∈ (fieldsA ((k, v) :: rest) pfx).map Prod.fst,
      q ∉ out.map Prod.fst)
    (heq : fieldsA ((k, v) :: rest) pfx =
      (joinKey pfx k, v) :: fieldsA rest pfx)
    (hstep : flattenLoop ((k, v) :: rest) pfx out =
      flattenLoop rest pfx (dictInsert out (joinKey pfx k) v)) :
    flattenLoop ((k, v) :: rest) pfx out =
      out ++ fieldsA ((k, v) :: rest) pfx := by
  rw [heq] at hnd hdisj ⊢
  rw [List.map_cons, List.nodup_cons] at hnd
  have hins : dictInsert out (joinKey pfx k) v =
      out ++ [(joinKey pfx k, v)] :=
    dictInsert_of_not_mem (hdisj _ (by simp)) _
  have hdisj2 : ∀ q ∈ (fieldsA rest pfx).map Prod.fst,
      q ∉ (out ++ [(joinKey pfx k, v)]).map Prod.fst := by
    intro q hq hmem
    rw [List.map_append] at hmem
    rcases List.mem_append.mp hmem with h2 | h2
    · exact hdisj q (by simp [hq]) h2
    · simp only [List.map_cons, List.map_nil, List.mem_singleton] at h2
      subst h2
      exact hnd.1 hq
  rw [hstep, hins, ihrest pfx _ hnd.2 hdisj2]
  simp

theorem recurse_case_fieldsA {rest g : List (String × Json)} {k : String}
    {v : Json} {pfx : String} {out : List (String × Json)}
    (ihrest : ∀ (pfx : String) (out : List (String × Json)),
      ((fieldsA rest pfx).map Prod.fst).Nodup →
      (∀ q ∈ (fieldsA rest pfx).map Prod.fst, q ∉ out.map Prod.fst) →
      flattenLoop rest pfx out = out ++ fieldsA rest pfx)
    (ihg : ∀ (pfx : String) (out : List (String × Json)),
      ((fieldsA g pfx).map Prod.fst).Nodup →
      (∀ q ∈ (fieldsA g pfx).map Prod.fst, q ∉ out.map Prod.fst) →
      flattenLoop g pfx out = out ++ fieldsA g pfx)
    (hnd : ((fieldsA ((k, v) :: rest) pfx).map Prod.fst).Nodup)
    (hdisj : ∀ q ∈ (fieldsA ((k, v) :: rest) pfx).map Prod.fst,
      q ∉ out.map Prod.fst)
    (heq : fieldsA ((k, v) :: rest) pfx =
      fieldsA g (joinKey pfx k) ++ fieldsA rest pfx)
    (hstep : flattenLoop ((k, v) :: rest) pfx out =
      flattenLoop rest pfx
        (dictUpdate out (flatten_json (Json.obj g) (joinKey pfx k)))) :
    flattenLoop ((k, v) :: rest) pfx out =
      out ++ fieldsA ((k, v) :: rest) pfx := by
  rw [heq] at hnd hdisj ⊢
  rw [List.map_append, List.nodup_append] at hnd
  obtain ⟨hnd1, hnd2, hdisj12⟩ := hnd
  have hrec : flatten_json (Json.obj g) (joinKey pfx k) =
      fieldsA g (joinKey pfx k) := by
    show flattenLoop g (joinKey pfx k) [] = fieldsA g (joinKey pfx k)
    rw [ihg (joinKey pfx k) [] hnd1 (by simp)]
    simp
  have hupd : dictUpdate out (flatten_json (Json.obj g) (joinKey pfx k)) =
      out ++ fieldsA g (joinKey pfx k) := by
    rw [hrec]
    exact dictUpdate_of_disjoint hnd1
      (fun q hq => hdisj q
        (by rw [List.map_append]; exact List.mem_append_left _ hq))
  have hdisj2 : ∀ q ∈ (fieldsA rest pfx).map Prod.fst,
      q ∉ (out ++ fieldsA g (joinKey pfx k)).map Prod.fst := by
    intro q hq hmem
    rw [List.map_append] at hmem
    rcases List.mem_append.mp hmem with h2 | h2
    · exact hdisj q
        (by rw [List.map_append]; exact List.mem_append_right _ hq) h2
    · exact hdisj12 h2 hq
  rw [hstep, hupd, ihrest pfx _ hnd2 hdisj2, List.append_assoc]

theorem flattenLoop_eq_fieldsA :
    ∀ (n : Nat) (fields : List (String × Json)), sizeOf fields ≤ n →
      ∀ (pfx : String) (out : List (String × Json)),
        ((fieldsA fields pfx).map Prod.fst).Nodup →
        (∀ q ∈ (fieldsA fields pfx).map Prod.fst, q ∉ out.map Prod.fst) →
        flattenLoop fields pfx out = out ++ fieldsA fields pfx := by
  intro n
  induction n with
  | zero =>
    intro fields h
    exfalso
    cases fields <;> simp at h
  | succ n ih =>
    intro fields hsz pfx out hnd hdisj
    cases fields with
    | nil => simp [flattenLoop_nil, fieldsA_nil]
    | cons f rest =>
      obtain ⟨k, v⟩ := f
      have hrest : sizeOf rest ≤ n := by simp at hsz; omega
      have ihrest := ih rest hrest
      cases v with
      | obj g =>
        have hg : sizeOf g ≤ n := by simp at hsz; omega
        exact recurse_case_fieldsA ihrest (ih g hg) hnd hdisj rfl rfl
      | arr l =>
        cases l with
        | nil => exact store_case_fieldsA ihrest hnd hdisj rfl rfl
        | cons x t =>
          cases x with
          | obj g =>
            have hg : sizeOf g ≤ n := by simp at hsz; omega
            exact recurse_case_fieldsA ihrest (ih g hg) hnd hdisj rfl rfl
          | null => exact store_case_fieldsA ihrest hnd hdisj rfl rfl
          | bool b => exact store_case_fieldsA ihrest hnd hdisj rfl rfl
          | num m => exact store_case_fieldsA ihrest hnd hdisj rfl rfl
          | str s => exact store_case_fieldsA ihrest hnd hdisj rfl rfl
          | arr l' => exact store_case_fieldsA ihrest hnd hdisj rfl rfl
      | null => exact store_case_fieldsA ihrest hnd hdisj rfl rfl
      | bool b => exact store_case_fieldsA ihrest hnd hdisj rfl rfl
      | num m => exact store_case_fieldsA ihrest hnd hdisj rfl rfl
      | str s => exact store_case_fieldsA ihrest hnd hdisj rfl rfl

theorem mem_fieldsA_tail {x : String × Json} {rest : List (String × Json)}
    (k' : String) (v' : Json) (pfx : String) (h : x ∈ fieldsA rest pfx) :
    x ∈ fieldsA ((k', v') :: rest) pfx := by
  cases v'
  case arr l =>
    cases l
    case nil => exact List.mem_append_right _ h
    case cons y t => cases y <;> exact List.mem_append_right _ h
  all_goals exact List.mem_append_right _ h

theorem mem_fieldsA_of_scalar :
    ∀ (fields : List (String × Json)) (k : String) (v : Json) (pfx : String),
      (k, v) ∈ fields → isScalar v = true →
      (joinKey pfx k, v) ∈ fieldsA fields pfx := by
  intro fields
  induction fields with
  | nil => intro k v pfx h _; exact absurd h (List.not_mem_nil _)
  | cons f rest ih =>
    intro k v pfx h hv
    obtain ⟨k', v'⟩ := f
    rcases List.mem_cons.mp h with h1 | h1
    · cases h1
      rw [fieldsA_scalar _ _ _ _ hv]
      exact List.mem_cons_self _ _
    · exact mem_fieldsA_tail k' v' pfx (ih k v pfx h1 hv)

theorem fieldsA_flat :
    ∀ fields : List (String × Json),
      (∀ p ∈ fields, isScalar p.2 = true) → fieldsA fields "" = fields := by
  intro fields
  induction fields with
  | nil => intro _; rfl
  | cons f rest ih =>
    intro h
    obtain ⟨k, v⟩ := f
    have hv : isScalar v = true := h (k, v) (by simp)
    rw [fieldsA_scalar _ _ _ _ hv,
      ih (fun p hp => h p (List.mem_cons_of_mem _ hp))]
    have hjoin : joinKey "" k = k := by simp [joinKey]
    rw [hjoin]

/-! Facts about value multisets of the dictionary operations, used for
the wizard mapping invariant. -/

theorem mem_vals_dictInsert {α : Type} {out : List (String × α)}
    {k : String} {v x : α} (h : x ∈ (dictInsert out k v).map Prod.snd) :
    x ∈ out.map Prod.snd ∨ x = v := by
  obtain ⟨q, hmem, hx⟩ := List.mem_map.mp h
  obtain ⟨a, b⟩ := q
  subst hx
  rcases mem_dictInsert hmem with h1 | ⟨_, rfl⟩
  · exact Or.inl (List.mem_map_of_mem _ h1)
  · exact Or.inr rfl

theorem mem_vals_replace {α : Type} {k : String} {v x : α}
    {qs : List (String × α)}
    (h : x ∈ (qs.map (replaceKey k v)).map Prod.snd) :
    x ∈ qs.map Prod.snd ∨ x = v := by
  obtain ⟨q, hq, hx⟩ := List.mem_map.mp h
  obtain ⟨q0, hq0, hq1⟩ := List.mem_map.mp hq
  by_cases h0 : q0.1 = k
  · right
    rw [← hx, ← hq1]
    simp [replaceKey, h0]
  · left
    rw [← hx, ← hq1]
    simp only [replaceKey, h0, if_false]
    exact List.mem_map_of_mem _ hq0

theorem vals_nodup_replace {α : Type} {k : String} {v : α} :
    ∀ {out : List (String × α)}, (out.map Prod.fst).Nodup →
      (out.map Prod.snd).Nodup → v ∉ out.map Prod.snd →
      ((out.map (replaceKey k v)).map Prod.snd).Nodup := by
  intro out
  induction out with
  | nil => intro _ _ _; simp
  | cons q qs ih =>
    intro hk hv hnv
    obtain ⟨a, b⟩ := q
    simp only [List.map_cons, List.nodup_cons] at hk hv
    simp only [List.mem_cons, not_or, List.map_cons] at hnv
    by_cases hab : a = k
    · have hqs : qs.map (replaceKey k v) = qs := by
        have hall : ∀ p ∈ qs, replaceKey k v p = p := by
          intro p hp
          unfold replaceKey
          rw [if_neg]
          intro hpk
          exact (hab ▸ hk.1) (hpk ▸ List.mem_map_of_mem Prod.fst hp)
        calc qs.map (replaceKey k v) = qs.map id := List.map_congr_left hall
          _ = qs := List.map_id qs
      have hh : replaceKey k v (a, b) = (k, v) := by simp [replaceKey, hab]
      rw [List.map_cons, hh, hqs, List.map_cons, List.nodup_cons]
      exact ⟨hnv.2, hv.2⟩
    · have hh : replaceKey k v (a, b) = (a, b) := by simp [replaceKey, hab]
      rw [List.map_cons, hh, List.map_cons, List.nodup_cons]
      refine ⟨?_, ih hk.2 hv.2 hnv.2⟩
      intro hmem
      rcases mem_vals_replace hmem with h1 | h1
      · exact hv.1 h1
      · exact hnv.1 h1.symm

theorem vals_nodup_dictInsert {α : Type} {out : List (String × α)}
    {k : String} {v : α} (hk : (out.map Prod.fst).Nodup)
    (hv : (out.map Prod.snd).Nodup) (hnv : v ∉ out.map Prod.snd) :
    ((dictInsert out k v).map Prod.snd).Nodup := by
  unfold dictInsert
  split
  · exact vals_nodup_replace hk hv hnv
  · rw [List.map_append]
    refine hv.append (by simp) ?_
    intro x hx hxv
    simp only [List.map_cons, List.map_nil, List.mem_singleton] at hxv
    subst hxv
    exact hnv hx

theorem buildLoop_invariant :
    ∀ (cols : List String) (acc : List (String × String))
      (choice : String → Option String),
      ((acc.map Prod.snd) ++ cols).Nodup → (acc.map Prod.fst).Nodup →
      (∀ pr ∈ buildLoop cols choice acc,
        pr.2 ∈ acc.map Prod.snd ++ cols)
      ∧ ((buildLoop cols choice acc).map Prod.fst).Nodup
      ∧ ((buildLoop cols choice acc).map Prod.snd).Nodup := by
  intro cols
  induction cols with
  | nil =>
    intro acc choice hvc hk
    have hvals : (acc.map Prod.snd).Nodup := by simpa using hvc
    refine ⟨fun pr hpr => ?_, hk, hvals⟩
    rw [List.append_nil]
    exact List.mem_map_of_mem _ hpr
  | cons c rest ih =>
    intro acc choice hvc hk
    rw [List.nodup_append] at hvc
    obtain ⟨hva, hcr, hdisj⟩ := hvc
    have hcnotin : c ∉ acc.map Prod.snd := fun h => hdisj h (List.mem_cons_self c rest)
    cases hc : choice c with
    | none =>
      have hstep : buildLoop (c :: rest) choice acc = buildLoop rest choice acc := by
        show buildLoop rest choice
          (match choice c with | some p => dictInsert acc p c | none => acc) = _
        rw [hc]
      have hvc' : ((acc.map Prod.snd) ++ rest).Nodup := by
        rw [List.nodup_append]
        exact ⟨hva, hcr.of_cons,
          fun x hx hxr => hdisj hx (List.mem_cons_of_mem c hxr)⟩
      rcases ih acc choice hvc' hk with ⟨h1, h2, h3⟩
      rw [hstep]
      refine ⟨fun pr hpr => ?_, h2, h3⟩
      rcases List.mem_append.mp (h1 pr hpr) with hm | hm
      · exact List.mem_append_left _ hm
      · exact List.mem_append_right _ (List.mem_cons_of_mem c hm)
    | some p =>
      have hstep : buildLoop (c :: rest) choice acc =
          buildLoop rest choice (dictInsert acc p c) := by
        show buildLoop rest choice
          (match choice c with | some p => dictInsert acc p c | none => acc) = _
        rw [hc]
      have hk' : ((dictInsert acc p c).map Prod.fst).Nodup :=
        keys_nodup_dictInsert p c hk
      have hv' : ((dictInsert acc p c).map Prod.snd).Nodup :=
        vals_nodup_dictInsert hk hva hcnotin
      have hvc' : (((dictInsert acc p c).map Prod.snd) ++ rest).Nodup := by
        rw [List.nodup_append]
        refine ⟨hv', hcr.of_cons, ?_⟩
        intro x hx hxr
        rcases mem_vals_dictInsert hx with h1 | h1
        · exact hdisj h1 (List.mem_cons_of_mem c hxr)
        · subst h1
          exact (List.nodup_cons.mp hcr).1 hxr
      rcases ih (dictInsert acc p c) choice hvc' hk' with ⟨h1, h2, h3⟩
      rw [hstep]
      refine ⟨fun pr hpr => ?_, h2, h3⟩
      rcases List.mem_append.mp (h1 pr hpr) with hm | hm
      · rcases mem_vals_dictInsert hm with hm1 | hm1
        · exact List.mem_append_left _ hm1
        · rw [hm1]
          exact List.mem_append_right _ (List.mem_cons_self c rest)
      · exact List.mem_append_right _ (List.mem_cons_of_mem c hm)

/-! The accumulated join coincides with the plain dot-join as long as
no key is the empty string. -/

theorem append_dot_ne (pfx k : String) : pfx ++ "." ++ k ≠ "" := by
  intro h
  have := congrArg String.length h
  simp [String.length_append] at this
  exact absurd this.1.2 (by decide)

theorem joinAll_aux : ∀ (ks : List String) (pfx : String), pfx ≠ "" →
    joinAll pfx ks = if ks = [] then pfx else pfx ++ "." ++ dottedJoin ks := by
  intro ks
  induction ks with
  | nil => intro pfx _; simp [joinAll]
  | cons k ks' ih =>
    intro pfx hpfx
    have h1 : joinAll pfx (k :: ks') = joinAll (pfx ++ "." ++ k) ks' := by
      simp [joinAll, List.foldl_cons, joinKey, hpfx]
    rw [h1, ih (pfx ++ "." ++ k) (append_dot_ne pfx k)]
    cases ks' with
    | nil => simp [dottedJoin]
    | cons k2 ks'' =>
      simp only [if_neg (by simp : ¬(k2 :: ks'' = [])),
        if_neg (by simp : ¬(k :: k2 :: ks'' = []))]
      show pfx ++ "." ++ k ++ "." ++ dottedJoin (k2 :: ks'') =
        pfx ++ "." ++ (k ++ "." ++ dottedJoin (k2 :: ks''))
      simp [String.append_assoc]

theorem joinAll_eq_dottedJoin (ks : List String) (hne : ks ≠ [])
    (hall : ∀ s ∈ ks, s ≠ "") : joinAll "" ks = dottedJoin ks := by
  cases ks with
  | nil => exact absurd rfl hne
  | cons k ks' =>
    have h1 : joinAll "" (k :: ks') = joinAll k ks' := by
      simp [joinAll, List.foldl_cons, joinKey]
    rw [h1, joinAll_aux ks' k (hall k (by simp))]
    cases ks' with
    | nil => simp [dottedJoin]
    | cons k2 ks'' => simp [dottedJoin]

/-! Helpers for the empty-branch property. -/

theorem EmptyBranch_isObj {y : Json} (h : EmptyBranch y) :
    ∃ g, y = Json.obj g := by
  cases h with
  | mk fields _ => exact ⟨fields, rfl⟩

theorem flattenLoop_empty_branches :
    ∀ (fields : List (String × Json)) (pfx : String)
      (out : List (String × Json)),
      (∀ p ∈ fields, ∃ g, p.2 = Json.obj g) →
      (∀ p ∈ fields, ∀ q, flatten_json p.2 q = []) →
      flattenLoop fields pfx out = out := by
  intro fields
  induction fields with
  | nil => intro pfx out _ _; rfl
  | cons f rest ih =>
    intro pfx out hobj hflat
    obtain ⟨k, v⟩ := f
    obtain ⟨g, hg⟩ := hobj (k, v) (by simp)
    subst hg
    have hf : flatten_json (Json.obj g) (joinKey pfx k) = [] :=
      hflat (k, Json.obj g) (by simp) (joinKey pfx k)
    rw [flattenLoop_obj, hf, dictUpdate_nil]
    exact ih pfx out (fun p hp => hobj p (List.mem_cons_of_mem _ hp))
      (fun p hp q => hflat p (List.mem_cons_of_mem _ hp) q)

/-! The claims. -/

/-- C1 counterexample: the first-element sampling policy does not apply
to a list at the document root.  `flatten_json([{"a": 1}])` stores the
whole list under the sentinel path `"value"` (the code's own comment
says "primitive/array root"); it does not flatten the first element
under the root path as the claim asserts, which would give `{"a": 1}`. -/
theorem flatten_root_list_not_flattened :
    flatten_json (Json.arr [Json.obj [("a", Json.num 1)]]) "" =
      [("value", Json.arr [Json.obj [("a", Json.num 1)]])]
    ∧ flatten_json (Json.arr [Json.obj [("a", Json.num 1)]]) "" ≠
      flatten_json (Json.obj [("a", Json.num 1)]) "" :=
  ⟨rfl, fun h => absurd (congrArg (fun l => l.map Prod.fst) h) (by decide)⟩

/-- C1 (amended): for a list node in object-value position whose first
element is an object, `flatten_json` flattens that first element under
the list's own path, and the later elements contribute nothing (the
result does not depend on them); a list at the document root, however,
is not inspected: it is stored whole under the sentinel path
`"value"`. -/
theorem flatten_list_head_object_policy :
    (∀ (k : String) (g rest : List (String × Json)) (t : List Json)
       (pfx : String) (out : List (String × Json)),
       flattenLoop ((k, Json.arr (Json.obj g :: t)) :: rest) pfx out =
         flattenLoop rest pfx
           (dictUpdate out (flatten_json (Json.obj g) (joinKey pfx k))))
    ∧ (∀ (k : String) (g rest : List (String × Json)) (t t' : List Json)
        (pfx : String) (out : List (String × Json)),
        flattenLoop ((k, Json.arr (Json.obj g :: t)) :: rest) pfx out =
          flattenLoop ((k, Json.arr (Json.obj g :: t')) :: rest) pfx out)
    ∧ (∀ l : List Json,
        flatten_json (Json.arr l) "" = [("value", Json.arr l)]) :=
  ⟨fun _ _ _ _ _ _ => rfl,
   fun _ _ _ _ _ _ _ => rfl,
   fun _ => rfl⟩

/-- C2 counterexample: a scalar-valued key is not always stored in the
output under its dotted path.  In the document
`{"a.b": 2, "a": {"b": 1}}` the scalar `2` at key `"a.b"` is first
stored, then overwritten by the recursion into `"a"`, whose leaf `"b"`
produces the same dotted path `"a.b"`; the output holds `1` there, and
the entry `("a.b", 2)` is absent. -/
theorem flatten_scalar_key_clobbered :
    ("a.b", Json.num 2) ∉
      flatten_json (Json.obj [("a.b", Json.num 2),
        ("a", Json.obj [("b", Json.num 1)])]) "" := by
  simp [flatten_json, flattenLoop, dictInsert, dictUpdate, joinKey,
    replaceKey, stepOut]

/-- C2 (amended): `flatten_json` on an object document visits every
key — an object-valued key is recursed into with the path extended by
`joinKey` (a dot and the key); every output entry of an object document
is reached along a chain of keys from the root whose `joinKey`-join is
the output key; and a scalar-valued key is stored in the output under
its dotted path provided the document's flattened paths are pairwise
distinct (dictionary update lets a later contribution overwrite an
earlier one at an equal dotted path); the chain's join is the literal
dot-separated concatenation of its keys whenever no key is the empty
string. -/
theorem flatten_object_paths :
    (∀ (fields : List (String × Json)) (p : String) (w : Json),
       (p, w) ∈ flatten_json (Json.obj fields) "" →
       ∃ ks, ks ≠ [] ∧ p = joinAll "" ks ∧ EmitsF fields ks w)
    ∧ (∀ (k : String) (g rest : List (String × Json)) (pfx : String)
        (out : List (String × Json)),
        flattenLoop ((k, Json.obj g) :: rest) pfx out =
          flattenLoop rest pfx
            (dictUpdate out (flatten_json (Json.obj g) (joinKey pfx k))))
    ∧ (∀ (fields : List (String × Json)) (k : String) (v : Json)
        (pfx : String), (k, v) ∈ fields → isScalar v = true →
        ((fieldsA fields pfx).map Prod.fst).Nodup →
        (joinKey pfx k, v) ∈ flatten_json (Json.obj fields) pfx)
    ∧ (∀ ks : List String, ks ≠ [] → (∀ s ∈ ks, s ≠ "") →
        joinAll "" ks = dottedJoin ks) := by
  refine ⟨?_, fun k g rest pfx out => rfl, ?_,
    fun ks h1 h2 => joinAll_eq_dottedJoin ks h1 h2⟩
  · intro fields p w h
    have h' : (p, w) ∈ flattenLoop fields "" [] := h
    rcases flattenLoop_sound (sizeOf fields) fields le_rfl "" [] p w h' with
      h1 | h1
    · exact absurd h1 (List.not_mem_nil _)
    · exact h1
  · intro fields k v pfx hmem hv hnd
    have heq : flatten_json (Json.obj fields) pfx = fieldsA fields pfx := by
      show flattenLoop fields pfx [] = _
      rw [flattenLoop_eq_fieldsA (sizeOf fields) fields le_rfl pfx [] hnd
        (by simp)]
      simp
    rw [heq]
    exact mem_fieldsA_of_scalar fields k v pfx hmem hv

/-- C2 witness: the soundness part at the document `{"a": {"b": 1}}`
and its output entry `("a.b", 1)`, and the collision-free storage part
at the one-key document `{"b": 5}`. -/
theorem flatten_object_paths_witness :
    (∃ ks, ks ≠ [] ∧ "a.b" = joinAll "" ks ∧
      EmitsF [("a", Json.obj [("b", Json.num 1)])] ks (Json.num 1))
    ∧ ("b", Json.num 5) ∈ flatten_json (Json.obj [("b", Json.num 5)]) ""
    ∧ joinAll "" ["a", "b"] = dottedJoin ["a", "b"] :=
  ⟨flatten_object_paths.1 [("a", Json.obj [("b", Json.num 1)])] "a.b"
      (Json.num 1)
      (by simp [flatten_json, flattenLoop, dictInsert, dictUpdate, joinKey,
        replaceKey, stepOut]),
   flatten_object_paths.2.2.1 [("b", Json.num 5)] "b" (Json.num 5) ""
      (by simp) rfl (by decide),
   flatten_object_paths.2.2.2 ["a", "b"] (by decide) (by decide)⟩

/-- C3: a document that is not a JSON object is stored whole: the
result is the single-entry mapping from the sentinel path `"value"` to
the document itself. -/
theorem flatten_scalar_root (y : Json) (h : isObj y = false) :
    flatten_json y "" = [("value", y)] := by
  cases y <;> first | rfl | simp [isObj] at h

/-- C3 witness at the scalar document `7`. -/
theorem flatten_scalar_root_witness :
    isObj (Json.num 7) = false ∧
      flatten_json (Json.num 7) "" = [("value", Json.num 7)] :=
  ⟨rfl, flatten_scalar_root (Json.num 7) rfl⟩

/-- C4: an object key whose value is a non-empty list whose first
element is not an object is stored whole under the key's dotted path,
as a single entry, with no per-element entries. -/
theorem flatten_scalar_list_stored_whole (k : String) (x : Json)
    (t : List Json) (rest : List (String × Json)) (pfx : String)
    (out : List (String × Json)) (hx : isObj x = false) :
    flattenLoop ((k, Json.arr (x :: t)) :: rest) pfx out =
      flattenLoop rest pfx
        (dictInsert out (joinKey pfx k) (Json.arr (x :: t)))
    ∧ flatten_json (Json.obj [(k, Json.arr (x :: t))]) pfx =
        [(joinKey pfx k, Json.arr (x :: t))] := by
  constructor
  · cases x <;> first | rfl | simp [isObj] at hx
  · show flattenLoop [(k, Json.arr (x :: t))] pfx [] = _
    cases x <;> first | rfl | simp [isObj] at hx

/-- C4 witness at the field `"tags": [1, 2]`. -/
theorem flatten_scalar_list_stored_whole_witness :
    flattenLoop [("tags", Json.arr [Json.num 1, Json.num 2])] "" [] =
      flattenLoop [] ""
        (dictInsert [] (joinKey "" "tags") (Json.arr [Json.num 1, Json.num 2]))
    ∧ flatten_json (Json.obj [("tags", Json.arr [Json.num 1, Json.num 2])]) "" =
        [(joinKey "" "tags", Json.arr [Json.num 1, Json.num 2])] :=
  flatten_scalar_list_stored_whole "tags" (Json.num 1) [Json.num 2] [] "" [] rfl

/-- C5: flattening is the identity on a one-level object whose values
are all scalars (the keys of a Python dict are pairwise distinct, hence
the `Nodup` hypothesis), and flattening the result again returns it
unchanged. -/
theorem flatten_idempotent_on_flat (fields : List (String × Json))
    (hs : ∀ p ∈ fields, isScalar p.2 = true)
    (hn : (fields.map Prod.fst).Nodup) :
    flatten_json (Json.obj fields) "" = fields ∧
    flatten_json (Json.obj (flatten_json (Json.obj fields) "")) "" =
      flatten_json (Json.obj fields) "" := by
  have hA : fieldsA fields "" = fields := fieldsA_flat fields hs
  have h1 : flatten_json (Json.obj fields) "" = fields := by
    show flattenLoop fields "" [] = fields
    rw [flattenLoop_eq_fieldsA (sizeOf fields) fields le_rfl "" []
      (by rw [hA]; exact hn) (by simp), hA]
    simp
  refine ⟨h1, ?_⟩
  rw [h1]
  exact h1

/-- C5 witness at the flat document `{"a": 1, "b": "x"}`. -/
theorem flatten_idempotent_on_flat_witness :
    flatten_json (Json.obj [("a", Json.num 1), ("b", Json.str "x")]) "" =
      [("a", Json.num 1), ("b", Json.str "x")] ∧
    flatten_json (Json.obj (flatten_json
      (Json.obj [("a", Json.num 1), ("b", Json.str "x")]) "")) "" =
      flatten_json (Json.obj [("a", Json.num 1), ("b", Json.str "x")]) "" :=
  flatten_idempotent_on_flat [("a", Json.num 1), ("b", Json.str "x")]
    (by decide) (by decide)

/-- C6: the flattener is a pure function of its two arguments — equal
documents with equal accumulated paths flatten to equal mappings; it is
total and, as embedded, performs no effects. -/
theorem flatten_json_deterministic (d1 d2 : Json) (p1 p2 : String)
    (hd : d1 = d2) (hp : p1 = p2) :
    flatten_json d1 p1 = flatten_json d2 p2 := by
  rw [hd, hp]

/-- C6 witness at the document `3`. -/
theorem flatten_json_deterministic_witness :
    flatten_json (Json.num 3) "" = flatten_json (Json.num 3) "" :=
  flatten_json_deterministic (Json.num 3) (Json.num 3) "" "" rfl rfl

/-- C7: a mapping built by either wizard loop over a table with
pairwise-distinct column names is a finite map from paths to columns in
which every target column is drawn from the table's column list, each
path key occurs once (maps to exactly one column), and each column
occurs at most once as a target. -/
theorem wizard_mapping_invariant (cols : List String)
    (choice : String → Option String) (h : cols.Nodup) :
    (∀ pr ∈ buildMapping cols choice, pr.2 ∈ cols)
    ∧ ((buildMapping cols choice).map Prod.fst).Nodup
    ∧ ((buildMapping cols choice).map Prod.snd).Nodup := by
  rcases buildLoop_invariant cols [] choice (by simpa using h) (by simp) with
    ⟨h1, h2, h3⟩
  exact ⟨fun pr hpr => by simpa using h1 pr hpr, h2, h3⟩

/-- C7 witness at the §8 scenario: columns `ts`, `temp` mapped from
`hourly.time` and `hourly.temperature_2m`. -/
theorem wizard_mapping_invariant_witness :
    (∀ pr ∈ buildMapping ["ts", "temp"] sampleChoice, pr.2 ∈ ["ts", "temp"])
    ∧ ((buildMapping ["ts", "temp"] sampleChoice).map Prod.fst).Nodup
    ∧ ((buildMapping ["ts", "temp"] sampleChoice).map Prod.snd).Nodup :=
  wizard_mapping_invariant ["ts", "temp"] sampleChoice (by decide)

/-- C8: a trigger presented while a table is `Running` is rejected with
the signal "refresh already in progress" and leaves the table — its
state and its refresh history — unchanged, so no history record is
appended for the rejected trigger.  The scheduler is modelled from the
spec (§4.4), its backend implementation being outside the frontend
sources. -/
theorem refresh_exclusion (t : TableSched)
    (h : t.state = SchedState.running) :
    (triggerRefresh t).2 =
      TriggerOutcome.rejected "refresh already in progress"
    ∧ (triggerRefresh t).1 = t := by
  obtain ⟨s, hist⟩ := t
  have h' : s = SchedState.running := h
  subst h'
  exact ⟨rfl, rfl⟩

/-- C8 witness at a concrete running table with one prior record. -/
theorem refresh_exclusion_witness :
    (triggerRefresh sampleRunning).2 =
      TriggerOutcome.rejected "refresh already in progress"
    ∧ (triggerRefresh sampleRunning).1 = sampleRunning :=
  refresh_exclusion sampleRunning rfl

/-- C9: an object key whose value is an empty list, or a non-empty list
whose first element is itself a list (neither an object nor a scalar),
is stored whole under the key's dotted path; in particular an empty
list produces an entry — its key is present in the output — rather
than being omitted. -/
theorem flatten_other_lists_stored_whole :
    (∀ (k : String) (rest : List (String × Json)) (pfx : String)
       (out : List (String × Json)),
       flattenLoop ((k, Json.arr []) :: rest) pfx out =
         flattenLoop rest pfx (dictInsert out (joinKey pfx k) (Json.arr [])))
    ∧ (∀ (k : String) (l' t : List Json) (rest : List (String × Json))
        (pfx : String) (out : List (String × Json)),
        flattenLoop ((k, Json.arr (Json.arr l' :: t)) :: rest) pfx out =
          flattenLoop rest pfx
            (dictInsert out (joinKey pfx k) (Json.arr (Json.arr l' :: t))))
    ∧ (∀ (fields : List (String × Json)) (k : String) (pfx : String),
        (k, Json.arr []) ∈ fields →
        joinKey pfx k ∈ (flatten_json (Json.obj fields) pfx).map Prod.fst) := by
  refine ⟨fun k rest pfx out => rfl, fun k l' t rest pfx out => rfl, ?_⟩
  intro fields k pfx hmem
  obtain ⟨pre, post, rfl⟩ := List.append_of_mem hmem
  show joinKey pfx k ∈
    (flattenLoop (pre ++ (k, Json.arr []) :: post) pfx []).map Prod.fst
  rw [flattenLoop_append, flattenLoop_cons]
  exact keys_mono_flattenLoop post pfx _ (self_mem_keys_dictInsert _ _ _)

/-- C9 witness at the document `{"xs": []}`. -/
theorem flatten_other_lists_stored_whole_witness :
    joinKey "" "xs" ∈
      (flatten_json (Json.obj [("xs", Json.arr [])]) "").map Prod.fst :=
  flatten_other_lists_stored_whole.2.2 [("xs", Json.arr [])] "xs" "" (by simp)

/-- C10: an empty object contributes nothing: flattening the empty
object yields the empty mapping, a field holding an empty object leaves
the loop accumulator untouched, and a branch consisting only of nested
empty objects flattens to the empty mapping — no mapping leaf-path can
reach into it. -/
theorem flatten_empty_object_no_entries :
    (∀ pfx : String, flatten_json (Json.obj []) pfx = [])
    ∧ (∀ (k : String) (rest : List (String × Json)) (pfx : String)
        (out : List (String × Json)),
        flattenLoop ((k, Json.obj []) :: rest) pfx out =
          flattenLoop rest pfx out)
    ∧ (∀ y : Json, EmptyBranch y → ∀ pfx : String,
        flatten_json y pfx = []) := by
  refine ⟨fun pfx => rfl, fun k rest pfx out => rfl, ?_⟩
  intro y h
  induction h with
  | mk fields hall ih =>
    intro pfx
    show flattenLoop fields pfx [] = []
    exact flattenLoop_empty_branches fields pfx []
      (fun p hp => EmptyBranch_isObj (hall p hp))
      (fun p hp q => ih p hp q)

/-- C10 witness at the document `{"a": {}}`. -/
theorem flatten_empty_object_no_entries_witness :
    flatten_json (Json.obj [("a", Json.obj [])]) "" = [] := by
  have base : EmptyBranch (Json.obj []) :=
    EmptyBranch.mk [] (by intro p hp; exact absurd hp (List.not_mem_nil p))
  have lvl : EmptyBranch (Json.obj [("a", Json.obj [])]) :=
    EmptyBranch.mk _ (by
      intro p hp
      rw [List.mem_singleton] at hp
      subst hp
      exact base)
  exact flatten_empty_object_no_entries.2.2 _ lvl ""
